import Mathlib

/-!
Verification development for three libfirm subsystems: the GVN-PRE
optimizer (ir/opt/gvn_pre.c), the chordal register allocator
(ir/be/bechordal.c) and the IA-32 emitter (ir/be/ia32/ia32_emitter.c).
Each C function relevant to a checked property is shallowly embedded as an
executable Lean definition that mirrors the source control flow; theorems
then settle the stated properties against these embeddings.
-/

namespace GvnPre

/-- MAX_ANTIC_ITER from gvn_pre.c line 52: cap of the anticipation fixpoint. -/
def MAX_ANTIC_ITER : Nat := 10

/-- MAX_INSERT_ITER from gvn_pre.c line 53: cap of the insertion fixpoint. -/
def MAX_INSERT_ITER : Nat := 3

/-- Embeds the do-while fixpoint loops of gvn_pre (gvn_pre.c, gvn_pre):
the body runs one walker pass (step), incrementing the iteration counter
first, and the loop repeats while the pass reported changes and the
counter is still below the cap.  Returns the final state together with
the number of iterations executed. -/
def fixpoint_iterate (St : Type) (step : St → St × Bool) (cap : Nat)
    (iter : Nat) (s : St) : St × Nat :=
  let iter2 := iter + 1
  let r := step s
  if r.2 = true ∧ iter2 < cap then fixpoint_iterate St step cap iter2 r.1
  else (r.1, iter2)
termination_by cap - iter
decreasing_by
  simp only [iter2] at *
  omega

/-- The state part of one pass of the loop body. -/
def step_state (St : Type) (step : St → St × Bool) (s : St) : St :=
  (step s).1

theorem fixpoint_iterate_count_aux (St : Type) (step : St → St × Bool)
    (cap : Nat) : ∀ fuel iter s, cap - iter ≤ fuel → iter < cap →
    (fixpoint_iterate St step cap iter s).2 ≤ cap := by
  intro fuel
  induction fuel with
  | zero => intro iter s hf hlt; omega
  | succ n ih =>
    intro iter s hf hlt
    rw [fixpoint_iterate]
    split
    · rename_i h
      exact ih (iter + 1) (step s).1 (by omega) h.2
    · rename_i h
      omega

theorem fixpoint_iterate_state_aux (St : Type) (step : St → St × Bool)
    (cap : Nat) : ∀ fuel iter s, cap - iter ≤ fuel →
    (fixpoint_iterate St step cap iter s).1 =
      (step_state St step)^[(fixpoint_iterate St step cap iter s).2 - iter] s ∧
    iter < (fixpoint_iterate St step cap iter s).2 := by
  intro fuel
  induction fuel with
  | zero =>
    intro iter s hf
    rw [fixpoint_iterate]
    have hno : ¬((step s).2 = true ∧ iter + 1 < cap) := by
      intro h; omega
    rw [if_neg hno]
    refine ⟨?_, by omega⟩
    have : iter + 1 - iter = 1 := by omega
    simp [this, step_state]
  | succ n ih =>
    intro iter s hf
    rw [fixpoint_iterate]
    split
    · rename_i h
      have hrec := ih (iter + 1) (step s).1 (by omega)
      refine ⟨?_, by omega⟩
      rw [hrec.1]
      have heq : (fixpoint_iterate St step cap (iter + 1) (step s).1).2 - iter =
          ((fixpoint_iterate St step cap (iter + 1) (step s).1).2 - (iter + 1)) + 1 :=
        by omega
      rw [heq, Function.iterate_succ_apply]
      rfl
    · refine ⟨?_, by omega⟩
      have : iter + 1 - iter = 1 := by omega
      simp [this, step_state]

/-- C3: the anticipation fixpoint loop of gvn_pre executes at most
MAX_ANTIC_ITER = 10 iterations and the insertion fixpoint loop at most
MAX_INSERT_ITER = 3; each loop stops as soon as an iteration reports no
change, and the value handed to the following phase is exactly the state
computed by the iterations performed so far (the loop never diverges). -/
theorem gvn_pre_fixpoint_caps (St : Type) (step : St → St × Bool) (s : St) :
    (fixpoint_iterate St step MAX_ANTIC_ITER 0 s).2 ≤ 10 ∧
    (fixpoint_iterate St step MAX_INSERT_ITER 0 s).2 ≤ 3 ∧
    (∀ cap iter t, (step t).2 = false →
      fixpoint_iterate St step cap iter t = ((step t).1, iter + 1)) ∧
    (fixpoint_iterate St step MAX_ANTIC_ITER 0 s).1 =
      (step_state St step)^[(fixpoint_iterate St step MAX_ANTIC_ITER 0 s).2] s ∧
    (fixpoint_iterate St step MAX_INSERT_ITER 0 s).1 =
      (step_state St step)^[(fixpoint_iterate St step MAX_INSERT_ITER 0 s).2] s := by
  refine ⟨?_, ?_, ?_, ?_, ?_⟩
  · exact fixpoint_iterate_count_aux St step MAX_ANTIC_ITER MAX_ANTIC_ITER 0 s
      (by omega) (by simp [MAX_ANTIC_ITER])
  · exact fixpoint_iterate_count_aux St step MAX_INSERT_ITER MAX_INSERT_ITER 0 s
      (by omega) (by simp [MAX_INSERT_ITER])
  · intro cap iter t hnc
    rw [fixpoint_iterate]
    have hno : ¬((step t).2 = true ∧ iter + 1 < cap) := by
      intro h; rw [hnc] at h; exact absurd h.1 (by simp)
    rw [if_neg hno]
  · have h := fixpoint_iterate_state_aux St step MAX_ANTIC_ITER MAX_ANTIC_ITER 0 s
      (by omega)
    simpa using h.1
  · have h := fixpoint_iterate_state_aux St step MAX_INSERT_ITER MAX_INSERT_ITER 0 s
      (by omega)
    simpa using h.1

/-- Witness for gvn_pre_fixpoint_caps at a concrete step function that
reports no change: the loop performs exactly one iteration. -/
theorem gvn_pre_fixpoint_caps_witness :
    fixpoint_iterate Nat (fun n => (n + 1, false)) MAX_ANTIC_ITER 0 0 = (1, 1) ∧
    (fixpoint_iterate Nat (fun n => (n + 1, false)) MAX_INSERT_ITER 0 0).2 ≤ 3 :=
  ⟨(gvn_pre_fixpoint_caps Nat (fun n => (n + 1, false)) 0).2.2.1
      MAX_ANTIC_ITER 0 0 rfl,
    (gvn_pre_fixpoint_caps Nat (fun n => (n + 1, false)) 0).2.1⟩

/-- The opcode of an IR node as compare_gvn_identities consults it:
get_irn_op compares opcode identity; is_Phi, is_Block, is_memop and
is_Load are opcode classifications; hasCmpAttr records whether the opcode
installs a node_cmp_attr callback. -/
structure Opcode where
  code : Nat
  isPhi : Bool
  isBlock : Bool
  isMemop : Bool
  isLoad : Bool
  hasCmpAttr : Bool
deriving DecidableEq

/-- An IR node as the valuetable comparison sees it: id models pointer
identity, preds holds the ids of the input nodes (remember() hands the
valuetable nodes whose inputs are already the leaders of their values, so
equality of input ids is equality of input value numbers), attr the
opcode-specific attribute word. -/
structure GNode where
  id : Nat
  op : Opcode
  mode : Nat
  preds : List Nat
  attr : Nat
deriving DecidableEq

/-- The input loop of compare_gvn_identities (gvn_pre.c lines 280-288):
inputs at a position may differ only when both are CSE-neutral
(is_irn_cse_neutral); cse gives that classification by node id.  Returns
1 on the first mismatching position, 0 otherwise (the caller checked the
arities first; unequal lengths yield 1). -/
def cmpIns (cse : Nat → Bool) : List Nat → List Nat → Nat
  | [], [] => 0
  | a :: as, b :: bs =>
    if a ≠ b ∧ (cse a = false ∨ cse b = false) then 1
    else cmpIns cse as bs
  | _, _ => 1

/-- Modelled: the per-opcode node_cmp_attr callbacks live outside src/;
equal attribute words compare equal (return 0). -/
def node_cmp_attr (a b : GNode) : Nat :=
  if a.attr = b.attr then 0 else 1

/-- compare_gvn_identities from gvn_pre.c lines 245-299: 0 means the two
nodes collide in the valuetable (same value number), nonzero means they
stay distinct.  Identical pointers collide; any Phi stays distinct from
every other node; memops stay distinct unless both are Loads; then
opcode, mode, arity, the Block exclusion, the input loop and finally the
attribute comparison decide. -/
def compare_gvn_identities (cse : Nat → Bool) (a b : GNode) : Nat :=
  if a.id = b.id then 0
  else if a.op.isPhi = true ∨ b.op.isPhi = true then 1
  else if (a.op.isMemop = true ∨ b.op.isMemop = true) ∧
      (a.op.isLoad = false ∨ b.op.isLoad = false) then 1
  else if a.op ≠ b.op ∨ a.mode ≠ b.mode then 1
  else if a.preds.length ≠ b.preds.length then 1
  else if a.op.isBlock = true ∨ b.op.isBlock = true then 1
  else if cmpIns cse a.preds b.preds ≠ 0 then 1
  else if a.op.hasCmpAttr = true then node_cmp_attr a b else 0

/-- The comparison the claim describes: same value number iff opcodes,
modes, attributes, arities and inputs (input value numbers) coincide,
with Phi and memory-producing nodes always distinct unless their
predecessors are value-equal. -/
def c1_claimed_same_value (a b : GNode) : Prop :=
  if a.op.isPhi = true ∨ b.op.isPhi = true ∨
      a.op.isMemop = true ∨ b.op.isMemop = true then
    a.id = b.id ∨ (a.op = b.op ∧ a.preds = b.preds)
  else
    a.id = b.id ∨ (a.op = b.op ∧ a.mode = b.mode ∧ a.attr = b.attr ∧
      a.preds.length = b.preds.length ∧ a.preds = b.preds)

instance (a b : GNode) : Decidable (c1_claimed_same_value a b) := by
  unfold c1_claimed_same_value
  infer_instance

/-- The Phi opcode for the counterexample. -/
def phiOp : Opcode :=
  { code := 1, isPhi := true, isBlock := false, isMemop := false,
    isLoad := false, hasCmpAttr := false }

/-- Counterexample to C1: two distinct Phi nodes with identical (hence
value-equal) predecessors, modes and attributes are claimed to share a
value number, yet compare_gvn_identities keeps every pair of distinct
Phis apart unconditionally (gvn_pre.c lines 252-254). -/
theorem gvn_phi_distinct_counterexample :
    c1_claimed_same_value
      { id := 0, op := phiOp, mode := 3, preds := [7, 8], attr := 0 }
      { id := 1, op := phiOp, mode := 3, preds := [7, 8], attr := 0 } ∧
    compare_gvn_identities (fun _ => false)
      { id := 0, op := phiOp, mode := 3, preds := [7, 8], attr := 0 }
      { id := 1, op := phiOp, mode := 3, preds := [7, 8], attr := 0 } ≠ 0 := by
  constructor
  · decide
  · decide

theorem cmpIns_eq_zero_iff (cse : Nat → Bool) :
    ∀ as bs : List Nat, cmpIns cse as bs = 0 ↔
      List.Forall₂ (fun x y => x = y ∨ (cse x = true ∧ cse y = true)) as bs := by
  intro as
  induction as with
  | nil =>
    intro bs
    cases bs with
    | nil => simp [cmpIns]
    | cons b bs => simp [cmpIns]
  | cons a as ih =>
    intro bs
    cases bs with
    | nil => simp [cmpIns]
    | cons b bs =>
      rw [cmpIns]
      by_cases hc : a ≠ b ∧ (cse a = false ∨ cse b = false)
      · rw [if_pos hc]
        simp only [List.forall₂_cons, one_ne_zero, false_iff, not_and]
        intro h1 _
        rcases h1 with h1 | h1
        · exact absurd h1 hc.1
        · rcases hc.2 with h2 | h2
          · rw [h1.1] at h2; cases h2
          · rw [h1.2] at h2; cases h2
      · rw [if_neg hc]
        rw [ih bs]
        simp only [List.forall₂_cons]
        constructor
        · intro h
          refine ⟨?_, h⟩
          by_cases hab : a = b
          · exact Or.inl hab
          · right
            push_neg at hc
            have h3 := hc hab
            constructor
            · cases hca : cse a with
              | true => rfl
              | false => exact absurd hca h3.1
            · cases hcb : cse b with
              | true => rfl
              | false => exact absurd hcb h3.2
        · intro h; exact h.2

/-- C1 amended: two nodes collide in the valuetable (same value number)
iff they are the same node, or: neither is a Phi, neither is a Block, any
memory operation among them requires both to be Loads, their opcodes and
modes coincide, their arities coincide, at every input position the
inputs coincide or both are CSE-neutral, and their attribute words
coincide whenever the opcode installs an attribute comparison.  In
particular two distinct Phi nodes never share a value number even with
identical predecessors, and distinct non-Load memory operations never
share one. -/
theorem compare_gvn_identities_characterization (cse : Nat → Bool)
    (a b : GNode) :
    compare_gvn_identities cse a b = 0 ↔
      (a.id = b.id ∨
        (a.op.isPhi = false ∧ b.op.isPhi = false ∧
          ((a.op.isMemop = true ∨ b.op.isMemop = true) →
            (a.op.isLoad = true ∧ b.op.isLoad = true)) ∧
          a.op = b.op ∧ a.mode = b.mode ∧
          a.preds.length = b.preds.length ∧
          a.op.isBlock = false ∧ b.op.isBlock = false ∧
          List.Forall₂ (fun x y => x = y ∨ (cse x = true ∧ cse y = true))
            a.preds b.preds ∧
          (a.op.hasCmpAttr = true → a.attr = b.attr))) := by
  unfold compare_gvn_identities
  by_cases hid : a.id = b.id
  · simp [hid]
  · rw [if_neg hid]
    constructor
    · intro hz
      right
      by_cases hphi : a.op.isPhi = true ∨ b.op.isPhi = true
      · rw [if_pos hphi] at hz; cases hz
      rw [if_neg hphi] at hz
      push_neg at hphi
      by_cases hmem : (a.op.isMemop = true ∨ b.op.isMemop = true) ∧
          (a.op.isLoad = false ∨ b.op.isLoad = false)
      · rw [if_pos hmem] at hz; cases hz
      rw [if_neg hmem] at hz
      by_cases hop : a.op ≠ b.op ∨ a.mode ≠ b.mode
      · rw [if_pos hop] at hz; cases hz
      rw [if_neg hop] at hz
      push_neg at hop
      by_cases hlen : a.preds.length ≠ b.preds.length
      · rw [if_pos hlen] at hz; cases hz
      rw [if_neg hlen] at hz
      push_neg at hlen
      by_cases hblk : a.op.isBlock = true ∨ b.op.isBlock = true
      · rw [if_pos hblk] at hz; cases hz
      rw [if_neg hblk] at hz
      push_neg at hblk
      by_cases hins : cmpIns cse a.preds b.preds ≠ 0
      · rw [if_pos hins] at hz; cases hz
      rw [if_neg hins] at hz
      push_neg at hins
      have hforall := (cmpIns_eq_zero_iff cse a.preds b.preds).mp hins
      have hloads : (a.op.isMemop = true ∨ b.op.isMemop = true) →
          (a.op.isLoad = true ∧ b.op.isLoad = true) := by
        intro hm
        push_neg at hmem
        have h2 := hmem hm
        constructor
        · cases h1 : a.op.isLoad with
          | true => rfl
          | false => exact absurd h1 (by simp [h2.1])
        · cases h1 : b.op.isLoad with
          | true => rfl
          | false => exact absurd h1 (by simp [h2.2])
      have hattr : a.op.hasCmpAttr = true → a.attr = b.attr := by
        intro hca
        rw [if_pos hca] at hz
        unfold node_cmp_attr at hz
        by_cases he : a.attr = b.attr
        · exact he
        · rw [if_neg he] at hz; cases hz
      have hpa : a.op.isPhi = false := by
        cases h1 : a.op.isPhi with
        | true => exact absurd h1 (by simp [hphi.1])
        | false => rfl
      have hpb : b.op.isPhi = false := by
        cases h1 : b.op.isPhi with
        | true => exact absurd h1 (by simp [hphi.2])
        | false => rfl
      have hba : a.op.isBlock = false := by
        cases h1 : a.op.isBlock with
        | true => exact absurd h1 (by simp [hblk.1])
        | false => rfl
      have hbb : b.op.isBlock = false := by
        cases h1 : b.op.isBlock with
        | true => exact absurd h1 (by simp [hblk.2])
        | false => rfl
      exact ⟨hpa, hpb, hloads, hop.1, hop.2, hlen, hba, hbb, hforall, hattr⟩
    · intro hcon
      rcases hcon with h | h
      · exact absurd h hid
      obtain ⟨hpa, hpb, hloads, hopc, hmode, hlen, hba, hbb, hfa, hat⟩ := h
      rw [if_neg (by simp [hpa, hpb])]
      have hmem : ¬((a.op.isMemop = true ∨ b.op.isMemop = true) ∧
          (a.op.isLoad = false ∨ b.op.isLoad = false)) := by
        intro hm
        have h2 := hloads hm.1
        rcases hm.2 with h1 | h1
        · rw [h2.1] at h1; cases h1
        · rw [h2.2] at h1; cases h1
      rw [if_neg hmem]
      rw [if_neg (show ¬(a.op ≠ b.op ∨ a.mode ≠ b.mode) by
        push_neg; exact ⟨hopc, hmode⟩)]
      rw [if_neg (show ¬(a.preds.length ≠ b.preds.length) by
        push_neg; exact hlen)]
      rw [if_neg (by simp [hba, hbb])]
      rw [if_neg (show ¬(cmpIns cse a.preds b.preds ≠ 0) by
        push_neg; exact (cmpIns_eq_zero_iff cse a.preds b.preds).mpr hfa)]
      by_cases hca : a.op.hasCmpAttr = true
      · rw [if_pos hca]
        unfold node_cmp_attr
        rw [if_pos (hat hca)]
      · rw [if_neg hca]

/-- An expression as is_partially_redundant consults it: id models node
identity, isConst the is_Const test, mode its mode, tarval the constant
value (used by the constant-range branch of the source). -/
structure PExpr where
  id : Nat
  isConst : Bool
  mode : Nat
  tarval : Int
deriving DecidableEq

/-- The per-predecessor inputs of the loop of is_partially_redundant:
trans is get_translated(pred_block, expr), lookup the result of
ir_valueset_lookup(pred_info->avail_out, identify(trans)). -/
structure PredData where
  trans : PExpr
  lookup : Option PExpr
deriving DecidableEq

/-- The avail_expr computation of one loop iteration of
is_partially_redundant (gvn_pre.c lines 1193-1214): a constant
translated expression is its own available expression, otherwise the
avail_out lookup decides; the subsequent constant-range branch of the
source is kept although it cannot fire (a constant never reaches it with
a NULL avail_expr). -/
def availOf (p : PredData) : Option PExpr :=
  let avail_expr := if p.trans.isConst = true then some p.trans else p.lookup
  match avail_expr with
  | some e => some e
  | none =>
    if p.trans.isConst = true then
      if -127 ≤ p.trans.tarval ∧ p.trans.tarval ≤ 127 then some p.trans
      else none
    else none

/-- The loop state of is_partially_redundant: first_avail, the
partially_redundant and fully_redundant flags and the mode to return. -/
structure IprState where
  first_avail : Option PExpr
  partially : Bool
  fully : Bool
  mode : Option Nat
deriving DecidableEq

/-- One iteration of the predecessor loop of is_partially_redundant
(gvn_pre.c lines 1182-1239): an unavailable predecessor clears
fully_redundant; an available one records the mode and
partially_redundant, fills first_avail on first sight and clears
fully_redundant when a different available expression appears. -/
def ipr_step (st : IprState) (p : PredData) : IprState :=
  match availOf p with
  | none => { st with fully := false }
  | some e =>
    match st.first_avail with
    | none =>
      { first_avail := some e, partially := true, fully := st.fully,
        mode := some e.mode }
    | some f =>
      if f = e then
        { first_avail := some f, partially := true, fully := st.fully,
          mode := some e.mode }
      else
        { first_avail := some f, partially := true, fully := false,
          mode := some e.mode }

/-- is_partially_redundant from gvn_pre.c lines 1172-1253 (BETTER_GREED
is 0): run the loop over all predecessors and return the mode unless the
value is unavailable everywhere or identically available everywhere. -/
def is_partially_redundant (preds : List PredData) : Option Nat :=
  let st := preds.foldl ipr_step
    { first_avail := none, partially := false, fully := true, mode := none }
  if st.partially = false ∨ st.fully = true then none else st.mode

/-- Chained equality of the available expressions as the fully_redundant
flag tracks it through first_avail. -/
def all_same_avail : Option PExpr → List PredData → Bool
  | _, [] => true
  | none, p :: ps =>
    match availOf p with
    | none => false
    | some e => all_same_avail (some e) ps
  | some f, p :: ps =>
    match availOf p with
    | none => false
    | some e => decide (f = e) && all_same_avail (some f) ps

theorem ipr_foldl_partially :
    ∀ (l : List PredData) (st : IprState),
    (l.foldl ipr_step st).partially =
      (st.partially || l.any fun p => (availOf p).isSome) := by
  intro l
  induction l with
  | nil => intro st; simp
  | cons p ps ih =>
    intro st
    rw [List.foldl_cons, ih]
    have hstep : (ipr_step st p).partially =
        (st.partially || (availOf p).isSome) := by
      unfold ipr_step
      cases havail : availOf p with
      | none => simp
      | some e =>
        cases hf : st.first_avail with
        | none => simp
        | some f =>
          by_cases hfe : f = e <;> simp [hfe]
    rw [hstep, List.any_cons]
    cases st.partially <;> cases (availOf p).isSome <;> simp

theorem ipr_foldl_mode :
    ∀ (l : List PredData) (st : IprState),
    (l.foldl ipr_step st).mode.isSome =
      (st.mode.isSome || l.any fun p => (availOf p).isSome) := by
  intro l
  induction l with
  | nil => intro st; simp
  | cons p ps ih =>
    intro st
    rw [List.foldl_cons, ih]
    have hstep : (ipr_step st p).mode.isSome =
        (st.mode.isSome || (availOf p).isSome) := by
      unfold ipr_step
      cases havail : availOf p with
      | none => simp
      | some e =>
        cases hf : st.first_avail with
        | none => simp
        | some f =>
          by_cases hfe : f = e <;> simp [hfe]
    rw [hstep, List.any_cons]
    cases st.mode.isSome <;> cases (availOf p).isSome <;> simp

theorem ipr_foldl_fully :
    ∀ (l : List PredData) (st : IprState),
    (l.foldl ipr_step st).fully =
      (st.fully && all_same_avail st.first_avail l) := by
  intro l
  induction l with
  | nil => intro st; simp [all_same_avail]
  | cons p ps ih =>
    intro st
    rw [List.foldl_cons, ih]
    cases havail : availOf p with
    | none =>
      have hstep : ipr_step st p = { st with fully := false } := by
        unfold ipr_step; rw [havail]
      rw [hstep]
      cases hf : st.first_avail with
      | none => simp [all_same_avail, havail]
      | some f => simp [all_same_avail, havail]
    | some e =>
      cases hf : st.first_avail with
      | none =>
        have hstep : ipr_step st p =
            { first_avail := some e, partially := true, fully := st.fully,
              mode := some e.mode } := by
          unfold ipr_step; rw [havail, hf]
        rw [hstep]
        simp [all_same_avail, havail]
      | some f =>
        by_cases hfe : f = e
        · have hstep : ipr_step st p =
              { first_avail := some f, partially := true, fully := st.fully,
                mode := some e.mode } := by
            unfold ipr_step; rw [havail, hf]; simp [hfe]
          rw [hstep]
          simp [all_same_avail, havail, hfe]
        · have hstep : ipr_step st p =
              { first_avail := some f, partially := true, fully := false,
                mode := some e.mode } := by
            unfold ipr_step; rw [havail, hf]; simp [hfe]
          rw [hstep]
          simp [all_same_avail, havail, hfe]

theorem all_same_avail_some_iff :
    ∀ (l : List PredData) (f : PExpr),
    all_same_avail (some f) l = true ↔ ∀ p ∈ l, availOf p = some f := by
  intro l
  induction l with
  | nil => intro f; simp [all_same_avail]
  | cons p ps ih =>
    intro f
    cases havail : availOf p with
    | none =>
      simp only [all_same_avail, havail]
      constructor
      · intro h; cases h
      · intro h
        have := h p (by simp)
        rw [havail] at this
        cases this
    | some e =>
      simp only [all_same_avail, havail, Bool.and_eq_true, decide_eq_true_eq]
      rw [ih f]
      constructor
      · intro h q hq
        rcases List.mem_cons.mp hq with h1 | h1
        · subst h1; rw [havail, h.1]
        · exact h.2 q h1
      · intro h
        have hp := h p (by simp)
        rw [havail] at hp
        refine ⟨by injection hp with h2; exact h2.symm, ?_⟩
        intro q hq
        exact h q (by simp [hq])

theorem all_same_avail_none_iff :
    ∀ (l : List PredData),
    all_same_avail none l = true ↔
      ((∀ p ∈ l, (availOf p).isSome = true) ∧
        ∀ p ∈ l, ∀ q ∈ l, availOf p = availOf q) := by
  intro l
  cases l with
  | nil => simp [all_same_avail]
  | cons p ps =>
    cases havail : availOf p with
    | none =>
      simp only [all_same_avail, havail]
      constructor
      · intro h; cases h
      · intro h
        have := h.1 p (by simp)
        rw [havail] at this
        cases this
    | some e =>
      simp only [all_same_avail, havail]
      rw [all_same_avail_some_iff ps e]
      constructor
      · intro h
        have hall : ∀ q ∈ p :: ps, availOf q = some e := by
          intro q hq
          rcases List.mem_cons.mp hq with h1 | h1
          · subst h1; exact havail
          · exact h q h1
        constructor
        · intro q hq; rw [hall q hq]; rfl
        · intro q hq r hr; rw [hall q hq, hall r hr]
      · intro h q hq
        have := h.2 q (by simp [hq]) p (by simp)
        rw [havail] at this
        exact this

/-- The condition C2 claims: the avail_out lookup of the phi-translated
value succeeds for at least one predecessor but not identically (as the
same available expression) in all predecessors. -/
def c2_claimed_cond (l : List PredData) : Prop :=
  (∃ p ∈ l, (p.lookup).isSome = true) ∧
  ¬((∀ p ∈ l, (p.lookup).isSome = true) ∧
    ∀ p ∈ l, ∀ q ∈ l, p.lookup = q.lookup)

instance (l : List PredData) : Decidable (c2_claimed_cond l) := by
  unfold c2_claimed_cond
  infer_instance

/-- The amended condition: as claimed, but an available expression of a
predecessor is its constant translated expression when that translation
is a constant, and the avail_out lookup result otherwise. -/
def c2_avail_cond (l : List PredData) : Prop :=
  (∃ p ∈ l, (availOf p).isSome = true) ∧
  ¬((∀ p ∈ l, (availOf p).isSome = true) ∧
    ∀ p ∈ l, ∀ q ∈ l, availOf p = availOf q)

instance (l : List PredData) : Decidable (c2_avail_cond l) := by
  unfold c2_avail_cond
  infer_instance

/-- Counterexample to C2: in a block with two predecessors where the
expression phi-translates to a constant on the first predecessor (absent
from its avail_out) and is unavailable on the second,
is_partially_redundant returns a mode although the avail_out lookup
succeeds for no predecessor (gvn_pre.c lines 1193-1194 treat a constant
translated expression as available without any lookup). -/
theorem partial_redundancy_const_counterexample :
    is_partially_redundant
        [{ trans := { id := 5, isConst := true, mode := 2, tarval := 0 },
            lookup := none },
          { trans := { id := 6, isConst := false, mode := 2, tarval := 0 },
            lookup := none }] = some 2 ∧
    ¬c2_claimed_cond
        [{ trans := { id := 5, isConst := true, mode := 2, tarval := 0 },
            lookup := none },
          { trans := { id := 6, isConst := false, mode := 2, tarval := 0 },
            lookup := none }] ∧
    2 ≤ ([{ trans := { id := 5, isConst := true, mode := 2, tarval := 0 },
            lookup := none },
          { trans := { id := 6, isConst := false, mode := 2, tarval := 0 },
            lookup := none }] : List PredData).length := by
  refine ⟨by decide, by decide, by decide⟩

/-- C2 amended: for a block with at least two predecessors,
is_partially_redundant returns a non-NULL mode iff the available
expression (the constant translated expression itself when the
translation is a constant, the avail_out lookup of the translated value
otherwise) exists for at least one predecessor but not identically for
all predecessors. -/
theorem is_partially_redundant_characterization (l : List PredData)
    (h2 : 2 ≤ l.length) :
    is_partially_redundant l ≠ none ↔ c2_avail_cond l := by
  unfold is_partially_redundant
  have hpart := ipr_foldl_partially l
    { first_avail := none, partially := false, fully := true, mode := none }
  have hmode := ipr_foldl_mode l
    { first_avail := none, partially := false, fully := true, mode := none }
  have hfully := ipr_foldl_fully l
    { first_avail := none, partially := false, fully := true, mode := none }
  simp only [Bool.false_or, Option.isSome_none, Bool.true_and] at hpart
  simp only [Bool.false_or, Option.isSome_none, Bool.true_and] at hmode
  simp only [Bool.false_or, Option.isSome_none, Bool.true_and] at hfully
  set st := l.foldl ipr_step
    { first_avail := none, partially := false, fully := true, mode := none }
    with hst
  constructor
  · intro hne
    have hcond : ¬(st.partially = false ∨ st.fully = true) := by
      intro hc
      rw [if_pos hc] at hne
      exact hne rfl
    push_neg at hcond
    have hany : (l.any fun p => (availOf p).isSome) = true := by
      rcases hb : st.partially with _ | _
      · exact absurd hb hcond.1
      · rw [hb] at hpart; exact hpart.symm
    constructor
    · rcases List.any_eq_true.mp hany with ⟨p, hp, hsome⟩
      exact ⟨p, hp, hsome⟩
    · intro hall
      have := (all_same_avail_none_iff l).mpr hall
      rw [← hfully] at this
      exact hcond.2 this
  · intro hcond
    rcases hcond with ⟨⟨p, hp, hsome⟩, hnall⟩
    have hany : (l.any fun q => (availOf q).isSome) = true :=
      List.any_eq_true.mpr ⟨p, hp, hsome⟩
    have hpartially : st.partially = true := by rw [hpart, hany]
    have hfully2 : st.fully = false := by
      rcases hb : st.fully with _ | _
      · rfl
      · rw [hb] at hfully
        exact absurd ((all_same_avail_none_iff l).mp hfully.symm) hnall
    rw [if_neg (by simp [hpartially, hfully2])]
    have : st.mode.isSome = true := by rw [hmode, hany]
    intro hnone
    rw [hnone] at this
    cases this

/-- The predecessor data of the witness: two predecessors, the value
available only in the first. -/
def c2_witness_list : List PredData :=
  [{ trans := { id := 3, isConst := false, mode := 7, tarval := 0 },
      lookup := some { id := 9, isConst := false, mode := 7, tarval := 0 } },
    { trans := { id := 4, isConst := false, mode := 7, tarval := 0 },
      lookup := none }]

/-- Witness for is_partially_redundant_characterization at
c2_witness_list. -/
theorem is_partially_redundant_characterization_witness :
    is_partially_redundant c2_witness_list ≠ none ↔
      c2_avail_cond c2_witness_list :=
  is_partially_redundant_characterization c2_witness_list (by decide)

/-- A plain (non-Phi, non-memop) opcode for the witness. -/
def plainOp : Opcode :=
  { code := 2, isPhi := false, isBlock := false, isMemop := false,
    isLoad := false, hasCmpAttr := false }

/-- Witness for compare_gvn_identities_characterization: two distinct
plain nodes with equal fields collide, and the characterization confirms
it. -/
theorem compare_gvn_identities_characterization_witness :
    compare_gvn_identities (fun _ => false)
        { id := 0, op := plainOp, mode := 3, preds := [7, 8], attr := 0 }
        { id := 1, op := plainOp, mode := 3, preds := [7, 8], attr := 0 } =
      0 :=
  (compare_gvn_identities_characterization (fun _ => false)
      { id := 0, op := plainOp, mode := 3, preds := [7, 8], attr := 0 }
      { id := 1, op := plainOp, mode := 3, preds := [7, 8], attr := 0 }).mpr
    (Or.inr ⟨rfl, rfl,
      (fun h => by cases h with
        | inl h => cases h
        | inr h => cases h),
      rfl, rfl, rfl, rfl, rfl, by decide, fun _ => rfl⟩)

end GvnPre

namespace Bechordal

/-- if_edge_t from bechordal_t.h: an interference edge between two node
indices (the int graph numbers of the nodes). -/
structure if_edge_t where
  src : Nat
  tgt : Nat
deriving DecidableEq

/-- edge_init from bechordal.c lines 258-270: canonicalize the pair,
bringing the smaller entry to src. -/
def edge_init (src tgt : Nat) : if_edge_t :=
  if src > tgt then ⟨tgt, src⟩ else ⟨src, tgt⟩

/-- add_if from bechordal.c lines 272-291: insert the canonicalized edge
into the edge set (set_insert is idempotent on equal keys; the neighbor
sets are not part of the checked properties). -/
def add_if (edges : Finset if_edge_t) (src tgt : Nat) : Finset if_edge_t :=
  insert (edge_init src tgt) edges

/-- are_connected from bechordal.c lines 293-298: canonicalize the query
pair and test membership. -/
def are_connected (edges : Finset if_edge_t) (src tgt : Nat) : Bool :=
  decide (edge_init src tgt ∈ edges)

/-- The def step of the pressure walk (bechordal.c, pressure, lines
560-571): on reaching a definition of node nr, the live bitset is first
cleared at nr (bitset_clear), then for every index still live an
interference edge (nr, elm) is added.  The live set is modelled as the
list of set bit indices in iteration order. -/
def pressure_def_step (edges : Finset if_edge_t) (nr : Nat) (live : List Nat) :
    Finset if_edge_t :=
  (live.filter (fun e => e ≠ nr)).foldl (fun es elm => add_if es nr elm) edges

/-- The edge set built by the pressure pass: the fold of all def events
(each event pairs the defined node index with the live set seen there)
starting from the empty edge set. -/
def build_edges (evs : List (Nat × List Nat)) : Finset if_edge_t :=
  evs.foldl (fun es ev => pressure_def_step es ev.1 ev.2) ∅

theorem edge_init_comm (a b : Nat) : edge_init a b = edge_init b a := by
  unfold edge_init
  rcases Nat.lt_trichotomy a b with h | h | h
  · rw [if_neg (by omega), if_pos (by omega)]
  · subst h; rfl
  · rw [if_pos (by omega), if_neg (by omega)]

theorem foldl_add_if_canonical (nr : Nat) :
    ∀ (l : List Nat) (edges : Finset if_edge_t),
    (∀ e ∈ edges, e.src < e.tgt) → (∀ x ∈ l, x ≠ nr) →
    ∀ e ∈ l.foldl (fun es elm => add_if es nr elm) edges, e.src < e.tgt := by
  intro l
  induction l with
  | nil => intro edges h _; simpa using h
  | cons x xs ih =>
    intro edges h hne
    simp only [List.foldl_cons]
    apply ih
    · intro e he
      rcases Finset.mem_insert.mp he with h1 | h2
      · subst h1
        have hx : x ≠ nr := hne x (by simp)
        unfold edge_init
        split
        · rename_i hg; simp only []; omega
        · rename_i hg
          simp only [not_lt] at hg
          simp only []
          omega
      · exact h e h2
    · intro y hy
      exact hne y (by simp [hy])

theorem pressure_def_step_canonical (nr : Nat) (live : List Nat)
    (edges : Finset if_edge_t) (h : ∀ e ∈ edges, e.src < e.tgt) :
    ∀ e ∈ pressure_def_step edges nr live, e.src < e.tgt := by
  unfold pressure_def_step
  apply foldl_add_if_canonical nr _ edges h
  intro x hx
  have := List.mem_filter.mp hx
  simpa using this.2

theorem build_edges_canonical (evs : List (Nat × List Nat)) :
    ∀ e ∈ build_edges evs, e.src < e.tgt := by
  unfold build_edges
  have main : ∀ (l : List (Nat × List Nat)) (edges : Finset if_edge_t),
      (∀ e ∈ edges, e.src < e.tgt) →
      ∀ e ∈ l.foldl (fun es ev => pressure_def_step es ev.1 ev.2) edges,
        e.src < e.tgt := by
    intro l
    induction l with
    | nil => intro edges h; simpa using h
    | cons x xs ih =>
      intro edges h
      simp only [List.foldl_cons]
      exact ih _ (pressure_def_step_canonical x.1 x.2 edges h)
  exact main evs ∅ (by simp)

/-- C7: every interference edge recorded by the pressure pass is stored
with the lower node index first; the edge set is symmetric under
are_connected, anti-reflexive, and holds at most one entry per unordered
pair of node indices. -/
theorem interference_edges_canonical (evs : List (Nat × List Nat)) :
    (∀ e ∈ build_edges evs, e.src < e.tgt) ∧
    (∀ a b, are_connected (build_edges evs) a b =
      are_connected (build_edges evs) b a) ∧
    (∀ e ∈ build_edges evs, e.src ≠ e.tgt) ∧
    (∀ e ∈ build_edges evs, ∀ f ∈ build_edges evs,
      ((e.src = f.src ∧ e.tgt = f.tgt) ∨ (e.src = f.tgt ∧ e.tgt = f.src)) →
      e = f) := by
  refine ⟨build_edges_canonical evs, ?_, ?_, ?_⟩
  · intro a b
    unfold are_connected
    rw [edge_init_comm]
  · intro e he
    have := build_edges_canonical evs e he
    omega
  · intro e he f hf hor
    have h1 := build_edges_canonical evs e he
    have h2 := build_edges_canonical evs f hf
    rcases hor with ⟨hs, ht⟩ | ⟨hs, ht⟩
    · cases e; cases f
      simp only [] at hs ht
      subst hs; subst ht; rfl
    · omega

/-- Witness for interference_edges_canonical: one def event of node 2
against live set [5, 2, 7] records the canonical edges (2,5) and (2,7). -/
theorem interference_edges_canonical_witness :
    (⟨2, 5⟩ : if_edge_t) ∈ build_edges [(2, [5, 2, 7])] ∧
    (2 : Nat) < 5 ∧
    are_connected (build_edges [(2, [5, 2, 7])]) 7 2 =
      are_connected (build_edges [(2, [5, 2, 7])]) 2 7 ∧
    (⟨2, 5⟩ : if_edge_t).src ≠ (⟨2, 5⟩ : if_edge_t).tgt := by
  have hmem : (⟨2, 5⟩ : if_edge_t) ∈ build_edges [(2, [5, 2, 7])] := by decide
  have h := interference_edges_canonical [(2, [5, 2, 7])]
  exact ⟨hmem, h.1 _ hmem, h.2.1 7 2, h.2.2.1 _ hmem⟩

/-- phi_ops_interfere from bechordal.c lines 790-802 (BUILD_GRAPH is
defined): look up the graph numbers of both nodes in the interference
edge set of the environment attached to the graph.  Nodes are modelled by
their graph numbers; both arguments belong to the same graph, hence the
same edge set. -/
def phi_ops_interfere (edges : Finset if_edge_t) (nr_a nr_b : Nat) : Bool :=
  are_connected edges nr_a nr_b

/-- C10: phi_ops_interfere gives the same answer for (a, b) and (b, a)
because are_connected canonicalizes the queried pair via edge_init before
the lookup. -/
theorem phi_ops_interfere_symm (edges : Finset if_edge_t) (nr_a nr_b : Nat) :
    phi_ops_interfere edges nr_a nr_b = phi_ops_interfere edges nr_b nr_a := by
  unfold phi_ops_interfere are_connected
  rw [edge_init_comm]

/-- Modelled from the spec: bitset_next_clear belongs to the repository
bitset module, which is not under src/.  A bitset allocated for colors_n
colors (bechordal.c, be_ra_chordal: bitset_obstack_alloc(obst, colors_n))
holds the indices in [0, colors_n); next-clear search from pos returns
the smallest clear index in that range, and fails when every color index
is set - the failure the spec calls a fatal invariant violation (the
value should have been spilled). -/
def bitset_next_clear (bs : Finset Nat) (size : Nat) (pos : Nat) : Option Nat :=
  (List.range size).find? (fun i => decide (pos ≤ i) && decide (i ∉ bs))

/-- The local-def branch of assign (bechordal.c lines 675-694): with the
bitset of colors currently in use, pick col = bitset_next_clear(colors, 0)
and hand it to arch_register_for_index.  Modelled from the spec:
arch_register_for_index (bearch, not under src/) yields a register of the
class only for an index in [0, colors_n); the exhausted lookup yields no
register and the allocator fails. -/
def assign_local_def_color (colors : Finset Nat) (colors_n : Nat) : Option Nat :=
  bitset_next_clear colors colors_n 0

theorem bitset_next_clear_none_iff (bs : Finset Nat) (size : Nat) :
    bitset_next_clear bs size 0 = none ↔ ∀ i < size, i ∈ bs := by
  unfold bitset_next_clear
  rw [List.find?_eq_none]
  constructor
  · intro h i hi
    have := h i (List.mem_range.mpr hi)
    simp at this
    exact this
  · intro h i hi
    simp only [Bool.and_eq_true, decide_eq_true_eq, not_and, Decidable.not_not]
    intro _
    exact h i (List.mem_range.mp hi)

theorem bitset_next_clear_some (bs : Finset Nat) (size col : Nat)
    (h : bitset_next_clear bs size 0 = some col) : col < size ∧ col ∉ bs := by
  unfold bitset_next_clear at h
  have hmem := List.mem_of_find?_eq_some h
  have hp := List.find?_some h
  simp only [Bool.and_eq_true, decide_eq_true_eq] at hp
  exact ⟨List.mem_range.mp hmem, hp.2⟩

/-- C4: in the assignment pass, reaching a local def while every one of
the colors_n colors is in use makes the color lookup fail (the fatal
invariant violation); whenever the lookup succeeds the chosen color lies
in [0, colors_n) and was not in use. -/
theorem assign_color_exhaustion_fatal (colors : Finset Nat) (colors_n : Nat) :
    (assign_local_def_color colors colors_n = none ↔
      ∀ c < colors_n, c ∈ colors) ∧
    (∀ col, assign_local_def_color colors colors_n = some col →
      col < colors_n ∧ col ∉ colors) := by
  refine ⟨bitset_next_clear_none_iff colors colors_n, ?_⟩
  intro col h
  exact bitset_next_clear_some colors colors_n col h

/-- Witness for assign_color_exhaustion_fatal: with two colors both in
use the lookup fails; with color 0 in use out of two, color 1 is chosen. -/
theorem assign_color_exhaustion_fatal_witness :
    assign_local_def_color {0, 1} 2 = none ∧
    ((1 : Nat) < 2 ∧ (1 : Nat) ∉ ({0} : Finset Nat)) := by
  constructor
  · exact (assign_color_exhaustion_fatal {0, 1} 2).1.mpr (by decide)
  · exact (assign_color_exhaustion_fatal {0} 2).2 1 (by decide)

/-- Witness for phi_ops_interfere_symm on a concrete edge set. -/
theorem phi_ops_interfere_symm_witness :
    phi_ops_interfere (build_edges [(2, [5, 2, 7])]) 5 2 =
      phi_ops_interfere (build_edges [(2, [5, 2, 7])]) 2 5 :=
  phi_ops_interfere_symm (build_edges [(2, [5, 2, 7])]) 5 2

end Bechordal

namespace Ia32Emitter

/-- GP registers by their ModR/M encoding (reg_gp_map, ia32_emitter.c
lines 1844-1851, maps the eight class registers onto 0..7). -/
abbrev Reg := Fin 8

/-- The instructions the Minus64Bit emitters produce (emit_ia32_Minus64Bit
lines 1332-1384 and bemit_minus64bit lines 2837-2889; both have the same
case structure and instruction selection, only the output backend
differs). -/
inductive M64Instr where
  | xchg (a b : Reg)
  | mov (src dst : Reg)
  | neg (r : Reg)
  | sbb0 (r : Reg)
  | sbb (src dst : Reg)
  | zero (r : Reg)
deriving DecidableEq

/-- The normal_neg tail: neg out_hi; neg out_lo; sbb $0, out_hi. -/
def normal_neg_seq (out_lo out_hi : Reg) : List M64Instr :=
  [M64Instr.neg out_hi, M64Instr.neg out_lo, M64Instr.sbb0 out_hi]

/-- The zero_neg tail: xor out_hi, out_hi; neg out_lo; sbb in_hi, out_hi. -/
def zero_neg_seq (in_hi out_lo out_hi : Reg) : List M64Instr :=
  [M64Instr.zero out_hi, M64Instr.neg out_lo, M64Instr.sbb in_hi out_hi]

/-- emit_ia32_Minus64Bit (and identically bemit_minus64bit): dispatch on
the input-to-output register mapping, emit a preface of xchg or mov
instructions, then one of the two negation tails. -/
def emit_ia32_Minus64Bit (in_lo in_hi out_lo out_hi : Reg) : List M64Instr :=
  if out_lo = in_lo then
    if out_hi ≠ in_hi then
      zero_neg_seq in_hi out_lo out_hi
    else
      normal_neg_seq out_lo out_hi
  else if out_lo = in_hi then
    if out_hi = in_lo then
      M64Instr.xchg in_lo in_hi :: normal_neg_seq out_lo out_hi
    else
      M64Instr.mov in_hi out_hi :: M64Instr.mov in_lo out_lo ::
        normal_neg_seq out_lo out_hi
  else
    if out_hi = in_lo then
      M64Instr.mov in_lo out_lo :: zero_neg_seq in_hi out_lo out_hi
    else if out_hi = in_hi then
      M64Instr.mov in_lo out_lo :: normal_neg_seq out_lo out_hi
    else
      M64Instr.mov in_lo out_lo :: zero_neg_seq in_hi out_lo out_hi

/-- The branch leaf taken by the nested if cascade of the Minus64Bit
emitters, numbered in source order. -/
def minus64bit_case (in_lo in_hi out_lo out_hi : Reg) : Nat :=
  if out_lo = in_lo then
    if out_hi ≠ in_hi then 0 else 1
  else if out_lo = in_hi then
    if out_hi = in_lo then 2 else 3
  else
    if out_hi = in_lo then 4 else if out_hi = in_hi then 5 else 6

/-- An instruction allowed in the preface before a negation tail. -/
def is_pre_instr : M64Instr → Bool
  | M64Instr.xchg _ _ => true
  | M64Instr.mov _ _ => true
  | _ => false

theorem minus64bit_case_lt (in_lo in_hi out_lo out_hi : Reg) :
    minus64bit_case in_lo in_hi out_lo out_hi < 7 := by
  unfold minus64bit_case
  split_ifs <;> omega

/-- Counterexample to C8: the Minus64Bit case dispatch distinguishes
exactly seven subcases of the register mapping, not eight - over all
register quadruples the branch selector attains exactly seven values. -/
theorem minus64bit_seven_cases_not_eight :
    (Finset.image
        (fun q : Reg × Reg × Reg × Reg =>
          minus64bit_case q.1 q.2.1 q.2.2.1 q.2.2.2)
        Finset.univ).card = 7 ∧ (7 : Nat) ≠ 8 := by
  have himg : Finset.image
      (fun q : Reg × Reg × Reg × Reg =>
        minus64bit_case q.1 q.2.1 q.2.2.1 q.2.2.2)
      Finset.univ = Finset.range 7 := by
    apply Finset.ext
    intro k
    simp only [Finset.mem_image, Finset.mem_univ, true_and, Finset.mem_range]
    constructor
    · rintro ⟨q, hq⟩
      rw [← hq]
      exact minus64bit_case_lt q.1 q.2.1 q.2.2.1 q.2.2.2
    · intro hk
      interval_cases k
      · exact ⟨(0, 1, 0, 2), by decide⟩
      · exact ⟨(0, 1, 0, 1), by decide⟩
      · exact ⟨(0, 1, 1, 0), by decide⟩
      · exact ⟨(0, 1, 1, 2), by decide⟩
      · exact ⟨(0, 1, 2, 0), by decide⟩
      · exact ⟨(0, 1, 2, 1), by decide⟩
      · exact ⟨(0, 1, 2, 3), by decide⟩
  rw [himg]
  exact ⟨Finset.card_range 7, by omega⟩

/-- C8 amended: the Minus64Bit emitters distinguish seven subcases of the
(lo, hi) input-to-output register mapping, and every subcase emits either
neg out_hi; neg out_lo; sbb $0, out_hi or xor out_hi, out_hi; neg out_lo;
sbb in_hi, out_hi, possibly preceded by an xchg or by register moves of
the inputs. -/
theorem minus64bit_emission_cases (in_lo in_hi out_lo out_hi : Reg) :
    minus64bit_case in_lo in_hi out_lo out_hi < 7 ∧
    ∃ pre : List M64Instr,
      (∀ i ∈ pre, is_pre_instr i = true) ∧
      (emit_ia32_Minus64Bit in_lo in_hi out_lo out_hi =
          pre ++ normal_neg_seq out_lo out_hi ∨
        emit_ia32_Minus64Bit in_lo in_hi out_lo out_hi =
          pre ++ zero_neg_seq in_hi out_lo out_hi) := by
  constructor
  · unfold minus64bit_case
    split_ifs <;> omega
  · unfold emit_ia32_Minus64Bit
    split_ifs
    · exact ⟨[], by simp, Or.inr rfl⟩
    · exact ⟨[], by simp, Or.inl rfl⟩
    · exact ⟨[M64Instr.xchg in_lo in_hi], by simp [is_pre_instr], Or.inl rfl⟩
    · exact ⟨[M64Instr.mov in_hi out_hi, M64Instr.mov in_lo out_lo],
        by simp [is_pre_instr], Or.inl rfl⟩
    · exact ⟨[M64Instr.mov in_lo out_lo], by simp [is_pre_instr], Or.inr rfl⟩
    · exact ⟨[M64Instr.mov in_lo out_lo], by simp [is_pre_instr], Or.inl rfl⟩
    · exact ⟨[M64Instr.mov in_lo out_lo], by simp [is_pre_instr], Or.inr rfl⟩

/-- Witness for minus64bit_emission_cases at the in-place mapping. -/
theorem minus64bit_emission_cases_witness :
    minus64bit_case 0 1 0 1 < 7 ∧
    ∃ pre : List M64Instr,
      (∀ i ∈ pre, is_pre_instr i = true) ∧
      (emit_ia32_Minus64Bit 0 1 0 1 = pre ++ normal_neg_seq 0 1 ∨
        emit_ia32_Minus64Bit 0 1 0 1 = pre ++ zero_neg_seq 1 0 1) :=
  minus64bit_emission_cases 0 1 0 1

/-- Mod field values, ia32_emitter.c lines 1868-1870. -/
def MOD_IND : Nat := 0x00

def MOD_IND_BYTE_OFS : Nat := 0x40

def MOD_IND_WORD_OFS : Nat := 0x80

/-- ENC_RM from line 1875. -/
def ENC_RM (x : Nat) : Nat := x

/-- ENC_REG from line 1877. -/
def ENC_REG (x : Nat) : Nat := x <<< 3

/-- ENC_SIB from line 1880. -/
def ENC_SIB (scale index base : Nat) : Nat :=
  scale <<< 6 ||| index <<< 3 ||| base

/-- The bytes produced by bemit_mod_am for one addressing mode: the
ModR/M byte, the optional SIB byte, the displacement width emitoffs
(0, 8 or 32 bits) and the emitted displacement (the low byte of offs for
the 8-bit form, offs itself for the 32-bit form). -/
structure ModAM where
  modrm : Nat
  sib : Option Nat
  emitoffs : Nat
  disp8 : Option Nat
  disp32 : Option Int
deriving DecidableEq

/-- bemit_mod_am from ia32_emitter.c lines 2024-2103, for addressing
modes without symbolic entity (ent == NULL, the case the claim covers).
base and index carry the registers already mapped through reg_gp_map;
absent registers (is_ia32_NoReg_GP) are none.  The control flow mirrors
the source: displacement classification, base handling, SIB decision,
the forced 8-bit offset for base encoding 0x05, then ENC_REG. -/
def bemit_mod_am (reg : Nat) (offs : Int) (base : Option Reg)
    (index : Option Reg) (scale : Fin 4) : ModAM :=
  let disp_class : Nat × Nat :=
    if offs = 0 then (MOD_IND, 0)
    else if -128 ≤ offs ∧ offs < 128 then (MOD_IND_BYTE_OFS, 8)
    else (MOD_IND_WORD_OFS, 32)
  let with_base : Nat × Nat × Nat :=
    match base with
    | some r => (disp_class.1, r.val, disp_class.2)
    | none => (MOD_IND, 0x05, 32)
  let base_enc := with_base.2.1
  let with_sib : Nat × Option Nat :=
    match index with
    | some ri => (with_base.1 ||| ENC_RM 0x04,
        some (ENC_SIB scale.val ri.val base_enc))
    | none =>
      if base_enc = 0x04 then
        (with_base.1 ||| ENC_RM 0x04, some (ENC_SIB 0 0x04 0x04))
      else
        (with_base.1 ||| ENC_RM base_enc, none)
  let forced : Nat × Nat :=
    if base_enc = 0x05 ∧ with_base.2.2 = 0 then
      (with_sib.1 ||| MOD_IND_BYTE_OFS, 8)
    else
      (with_sib.1, with_base.2.2)
  { modrm := forced.1 ||| ENC_REG reg
    sib := with_sib.2
    emitoffs := forced.2
    disp8 := if forced.2 = 8 then some (offs % 256).toNat else none
    disp32 := if forced.2 = 32 then some offs else none }

theorem or_shl_mod8 (a r k : Nat) (hk : 3 ≤ k) :
    (a ||| r <<< k) % 8 = a % 8 := by
  have h8 : (8 : Nat) = 2 ^ 3 := by norm_num
  rw [h8]
  apply Nat.eq_of_testBit_eq
  intro j
  simp only [Nat.testBit_mod_two_pow, Nat.testBit_or, Nat.testBit_shiftLeft]
  by_cases hj : j < 3
  · simp [hj, show ¬(k ≤ j) by omega]
  · simp [hj]

theorem enc_sib_mod8 (s i b : Nat) : ENC_SIB s i b % 8 = b % 8 := by
  unfold ENC_SIB
  have h8 : (8 : Nat) = 2 ^ 3 := by norm_num
  rw [h8]
  apply Nat.eq_of_testBit_eq
  intro j
  simp only [Nat.testBit_mod_two_pow, Nat.testBit_or, Nat.testBit_shiftLeft]
  by_cases hj : j < 3
  · simp [hj, show ¬(6 ≤ j) by omega, show ¬(3 ≤ j) by omega]
  · simp [hj]

/-- C6: for every addressing mode without symbolic entity - no base gives
base encoding 0x05 (in the R/M field, or in the SIB base field when an
index is present) with a 32-bit displacement; a base with a present
displacement in [-128, 127] gives an 8-bit displacement; a base register
encoding 0x04 forces a SIB byte; and base encoding 0x05 with zero
displacement forces an 8-bit zero displacement. -/
theorem bemit_mod_am_encodings (reg : Nat) (offs : Int) (base : Option Reg)
    (index : Option Reg) (scale : Fin 4) :
    (base = none →
      (bemit_mod_am reg offs base index scale).emitoffs = 32 ∧
      (index = none →
        (bemit_mod_am reg offs base index scale).modrm % 8 = 0x05) ∧
      (∀ ri, index = some ri →
        ∃ s, (bemit_mod_am reg offs base index scale).sib = some s ∧
          s % 8 = 0x05)) ∧
    (∀ b, base = some b → offs ≠ 0 → -128 ≤ offs → offs ≤ 127 →
      (bemit_mod_am reg offs base index scale).emitoffs = 8) ∧
    (∀ b, base = some b → b.val = 0x04 →
      (bemit_mod_am reg offs base index scale).sib.isSome) ∧
    (∀ b, base = some b → b.val = 0x05 → offs = 0 →
      (bemit_mod_am reg offs base index scale).emitoffs = 8 ∧
      (bemit_mod_am reg offs base index scale).disp8 = some 0) := by
  refine ⟨?_, ?_, ?_, ?_⟩
  · intro hb
    subst hb
    cases index with
    | none =>
      have he : bemit_mod_am reg offs none none scale =
          { modrm := MOD_IND ||| ENC_RM 0x05 ||| ENC_REG reg, sib := none,
            emitoffs := 32, disp8 := none, disp32 := some offs } := rfl
      rw [he]
      refine ⟨rfl, ?_, ?_⟩
      · intro _
        show (MOD_IND ||| ENC_RM 0x05 ||| ENC_REG reg) % 8 = 0x05
        unfold MOD_IND ENC_RM ENC_REG
        rw [or_shl_mod8 (0 ||| 5) reg 3 (by omega)]
        decide
      · intro ri h
        exact absurd h (by simp)
    | some ri =>
      have he : bemit_mod_am reg offs none (some ri) scale =
          { modrm := MOD_IND ||| ENC_RM 0x04 ||| ENC_REG reg,
            sib := some (ENC_SIB scale.val ri.val 0x05),
            emitoffs := 32, disp8 := none, disp32 := some offs } := rfl
      rw [he]
      refine ⟨rfl, (by intro h; cases h), ?_⟩
      intro rj hj
      refine ⟨ENC_SIB scale.val ri.val 0x05, rfl, ?_⟩
      rw [enc_sib_mod8]
  · intro b hb hne hlo hhi
    subst hb
    unfold bemit_mod_am
    simp only [if_neg hne, if_pos (by omega : -128 ≤ offs ∧ offs < 128)]
    cases index with
    | none =>
      by_cases h4 : b.val = 0x04
      · simp [h4, show ¬((0x04 : Nat) = 0x05 ∧ (8 : Nat) = 0) by omega]
      · by_cases h5 : b.val = 0x05
        · simp [h4, h5, show ¬((0x05 : Nat) = 0x05 ∧ (8 : Nat) = 0) by omega]
        · simp [h4, show ¬(b.val = 0x05 ∧ (8 : Nat) = 0) by omega]
    | some ri =>
      simp [show ¬(b.val = 0x05 ∧ (8 : Nat) = 0) by omega]
  · intro b hb h4
    subst hb
    unfold bemit_mod_am
    cases index with
    | none => simp [h4]
    | some ri => simp
  · intro b hb h5 h0
    subst hb
    subst h0
    unfold bemit_mod_am
    simp only [if_pos rfl]
    cases index with
    | none =>
      simp [h5, show ¬((0x05 : Nat) = 0x04) by omega,
        show ((0x05 : Nat) = 0x05 ∧ (0 : Nat) = 0) by omega]
    | some ri =>
      simp [h5, show ((0x05 : Nat) = 0x05 ∧ (0 : Nat) = 0) by omega]

/-- Witness for bemit_mod_am_encodings: the four encodings at concrete
addressing modes (no base; base eax with displacement 1; base esp; base
ebp with zero displacement). -/
theorem bemit_mod_am_encodings_witness :
    (bemit_mod_am 0 0 none none 0).emitoffs = 32 ∧
    (bemit_mod_am 0 1 (some 0) none 0).emitoffs = 8 ∧
    (bemit_mod_am 0 1 (some 4) none 0).sib.isSome ∧
    ((bemit_mod_am 0 0 (some 5) none 0).emitoffs = 8 ∧
      (bemit_mod_am 0 0 (some 5) none 0).disp8 = some 0) := by
  refine ⟨?_, ?_, ?_, ?_⟩
  · exact ((bemit_mod_am_encodings 0 0 none none 0).1 rfl).1
  · exact (bemit_mod_am_encodings 0 1 (some 0) none 0).2.1 0 rfl
      (by decide) (by decide) (by decide)
  · exact (bemit_mod_am_encodings 0 1 (some 4) none 0).2.2.1 4 rfl rfl
  · exact (bemit_mod_am_encodings 0 0 (some 5) none 0).2.2.2 5 rfl rfl rfl

/-- Modelled from the spec: the condition-code flag bits of
ia32_condition_code_t live in ia32_nodes_attr.h, which is not under src/.
The spec names a negation flag (negated-condition branch) and a
parity-cases flag (additional jp/jnp guards for unordered floating-point
compares); they are distinct bits of the code. -/
def ia32_cc_negated : Nat := 0x01

/-- Modelled from the spec: the float-parity-cases flag bit, tested by
emit_ia32_Jcc via cc & ia32_cc_float_parity_cases. -/
def ia32_cc_float_parity_cases : Nat := 0x10

/-- Modelled from the spec: ia32_negate_condition_code negates a
condition code, toggling the negation flag and leaving the other bits
(among them the parity-cases flag) unchanged. -/
def ia32_negate_condition_code (cc : Nat) : Nat := cc ^^^ ia32_cc_negated

/-- can_be_fallthrough from ia32_emitter.c lines 837-842: the target
block of the control-flow projection is a fall-through exactly if its
schedule predecessor (get_prev_block_sched) is the block of the Jcc.
Blocks are modelled by identifiers; prev_sched gives the schedule
predecessor of a block. -/
def can_be_fallthrough (prev_sched : Nat → Option Nat) (block : Nat)
    (target_block : Nat) : Bool :=
  prev_sched target_block == some block

/-- The instructions emit_ia32_Jcc can produce. -/
inductive JccEmit where
  | jp (target : Nat)
  | jp_local
  | local_label
  | jcc (cc : Nat) (target : Nat)
  | jmp (target : Nat)
  | fallthrough_comment (target : Nat)
deriving DecidableEq

/-- emit_ia32_Jcc from ia32_emitter.c lines 847-901.  cc0 is the code
after determine_final_cc; true_tgt and false_tgt are the target blocks of
the true and false projections.  If the true projection can fall through,
the projections are exchanged and the code negated; the parity-cases flag
then possibly adds a jp guard (with a local label when the false side is
a fall-through); finally the conditional branch is emitted, and a jmp for
the false side only when it is no fall-through (verbose assembly emits a
comment instead). -/
def emit_ia32_Jcc (prev_sched : Nat → Option Nat) (block : Nat) (cc0 : Nat)
    (true_tgt false_tgt : Nat) (verbose : Bool) : List JccEmit :=
  let swapped := can_be_fallthrough prev_sched block true_tgt
  let pt := if swapped then false_tgt else true_tgt
  let pf := if swapped then true_tgt else false_tgt
  let cc := if swapped then ia32_negate_condition_code cc0 else cc0
  let parity : List JccEmit × Bool :=
    if cc &&& ia32_cc_float_parity_cases ≠ 0 then
      if cc &&& ia32_cc_negated ≠ 0 then ([JccEmit.jp pt], false)
      else if can_be_fallthrough prev_sched block pf then
        ([JccEmit.jp_local], true)
      else ([JccEmit.jp pf], false)
    else ([], false)
  parity.1 ++ [JccEmit.jcc cc pt] ++
    (if parity.2 then [JccEmit.local_label] else []) ++
    (if can_be_fallthrough prev_sched block pf then
      (if verbose then [JccEmit.fallthrough_comment pf] else [])
    else [JccEmit.jmp pf])

/-- Recognizes an unconditional jmp. -/
def is_jmp : JccEmit → Bool
  | JccEmit.jmp _ => true
  | _ => false

/-- Counterexample to C5: with a floating-point condition code carrying
the parity-cases flag and a true projection that falls through, the
emitter produces a jp guard in addition to the negated conditional
branch, so the emission is not a single conditional branch. -/
theorem jcc_fallthrough_parity_counterexample :
    can_be_fallthrough (fun t => if t = 10 then some 1 else none) 1 10 = true ∧
    emit_ia32_Jcc (fun t => if t = 10 then some 1 else none) 1
        ia32_cc_float_parity_cases 10 20 false =
      [JccEmit.jp 20,
        JccEmit.jcc (ia32_negate_condition_code ia32_cc_float_parity_cases) 20] ∧
    [JccEmit.jp 20,
        JccEmit.jcc (ia32_negate_condition_code ia32_cc_float_parity_cases) 20] ≠
      [JccEmit.jcc (ia32_negate_condition_code ia32_cc_float_parity_cases) 20] := by
  refine ⟨rfl, by decide, by decide⟩

/-- C5 amended: when the true projection of a Jcc targets the schedule
successor of the current block, the emitter exchanges the projections and
negates the condition code, emitting the conditional branch with the
negated code to the false target and no jmp for the fall-through side;
when the negated code carries the float-parity-cases flag an additional
jp guard (and possibly a local label after the branch) accompanies it,
and with verbose assembly a comment marks the fall-through. -/
theorem jcc_fallthrough_negates_cc (prev_sched : Nat → Option Nat)
    (block cc0 true_tgt false_tgt : Nat) (verbose : Bool)
    (hft : can_be_fallthrough prev_sched block true_tgt = true) :
    ∃ guard lbl : List JccEmit,
      emit_ia32_Jcc prev_sched block cc0 true_tgt false_tgt verbose =
        guard ++ [JccEmit.jcc (ia32_negate_condition_code cc0) false_tgt] ++
          lbl ++
          (if verbose then [JccEmit.fallthrough_comment true_tgt] else []) ∧
      (guard = [] ∨ guard = [JccEmit.jp false_tgt] ∨
        guard = [JccEmit.jp_local]) ∧
      (lbl = [] ∨ lbl = [JccEmit.local_label]) ∧
      (ia32_negate_condition_code cc0 &&& ia32_cc_float_parity_cases = 0 →
        guard = [] ∧ lbl = []) ∧
      ∀ i ∈ emit_ia32_Jcc prev_sched block cc0 true_tgt false_tgt verbose,
        is_jmp i = false := by
  by_cases hpar :
      ia32_negate_condition_code cc0 &&& ia32_cc_float_parity_cases ≠ 0
  · by_cases hneg : ia32_negate_condition_code cc0 &&& ia32_cc_negated ≠ 0
    · have heq : emit_ia32_Jcc prev_sched block cc0 true_tgt false_tgt
          verbose =
          [JccEmit.jp false_tgt] ++
            [JccEmit.jcc (ia32_negate_condition_code cc0) false_tgt] ++ [] ++
            (if verbose then [JccEmit.fallthrough_comment true_tgt]
              else []) := by
        unfold emit_ia32_Jcc
        simp only [hft, if_true, if_pos hpar, if_pos hneg]
        simp
      refine ⟨[JccEmit.jp false_tgt], [], heq, by simp, by simp,
        (fun h => absurd h hpar), ?_⟩
      intro i hi
      rw [heq] at hi
      cases i <;> try rfl
      cases verbose <;> simp at hi
    · have heq : emit_ia32_Jcc prev_sched block cc0 true_tgt false_tgt
          verbose =
          [JccEmit.jp_local] ++
            [JccEmit.jcc (ia32_negate_condition_code cc0) false_tgt] ++
            [JccEmit.local_label] ++
            (if verbose then [JccEmit.fallthrough_comment true_tgt]
              else []) := by
        unfold emit_ia32_Jcc
        simp only [hft, if_true, if_pos hpar, if_neg hneg]
        try simp
      refine ⟨[JccEmit.jp_local], [JccEmit.local_label], heq, by simp,
        by simp, (fun h => absurd h hpar), ?_⟩
      intro i hi
      rw [heq] at hi
      cases i <;> try rfl
      cases verbose <;> simp at hi
  · have heq : emit_ia32_Jcc prev_sched block cc0 true_tgt false_tgt
        verbose =
        [] ++ [JccEmit.jcc (ia32_negate_condition_code cc0) false_tgt] ++
          [] ++
          (if verbose then [JccEmit.fallthrough_comment true_tgt]
            else []) := by
      unfold emit_ia32_Jcc
      simp only [hft, if_true, if_neg hpar]
      simp
    refine ⟨[], [], heq, by simp, by simp, (fun _ => ⟨rfl, rfl⟩), ?_⟩
    intro i hi
    rw [heq] at hi
    cases i <;> try rfl
    cases verbose <;> simp at hi

/-- Witness for jcc_fallthrough_negates_cc: a concrete integer condition
code (no parity flag) with a fall-through true projection. -/
theorem jcc_fallthrough_negates_cc_witness :
    ∃ guard lbl : List JccEmit,
      emit_ia32_Jcc (fun t => if t = 10 then some 1 else none) 1 2 10 20
          false =
        guard ++ [JccEmit.jcc (ia32_negate_condition_code 2) 20] ++ lbl ++
          (if false = true then [JccEmit.fallthrough_comment 10] else []) ∧
      (guard = [] ∨ guard = [JccEmit.jp 20] ∨ guard = [JccEmit.jp_local]) ∧
      (lbl = [] ∨ lbl = [JccEmit.local_label]) ∧
      (ia32_negate_condition_code 2 &&& ia32_cc_float_parity_cases = 0 →
        guard = [] ∧ lbl = []) ∧
      ∀ i ∈ emit_ia32_Jcc (fun t => if t = 10 then some 1 else none) 1 2 10 20
          false, is_jmp i = false :=
  jcc_fallthrough_negates_cc (fun t => if t = 10 then some 1 else none)
    1 2 10 20 false rfl

end Ia32Emitter
